import Mathlib

/-!
Verification development for the RealTime-CodeAi VS Code extension.

The JavaScript sources are shallowly embedded: JavaScript objects (and
`Map`s) become ordered association lists with overwrite-in-place update
(`Obj`), asynchronous effects (network fetches, the editor host, clock
reads) become explicit function parameters, and each method of the
`DocDiffer`, `StorageManager`, `ContextExtractor`, `WebviewPanel` and
`DocumentationService` classes becomes a pure state-passing function.
-/

namespace RealTimeCodeAi

/-- A JavaScript object (or insertion-ordered `Map`): an ordered list of
key/value pairs.  All object-building code in the sources goes through
`Obj.set`, which mirrors `o[k] = v` / `Map.set`: it overwrites in place
when the key is present and appends otherwise, so iteration order is
insertion order, as in JavaScript. -/
abbrev Obj (α : Type) : Type := List (String × α)

namespace Obj

/-- Property read `o[k]`: the first (and, for objects built by `set`, only)
binding of `k`. -/
def lookup {α : Type} : Obj α → String → Option α
  | [], _ => none
  | (k0, v0) :: rest, k => if k0 = k then some v0 else lookup rest k

/-- Property write `o[k] = v` / `Map.set`: overwrite in place, else append. -/
def set {α : Type} : Obj α → String → α → Obj α
  | [], k, v => [(k, v)]
  | (k0, v0) :: rest, k, v =>
    if k0 = k then (k, v) :: rest else (k0, v0) :: set rest k v

/-- Property removal `delete o[k]` / `Map.delete`. -/
def del {α : Type} : Obj α → String → Obj α
  | [], _ => []
  | (k0, v0) :: rest, k => if k0 = k then del rest k else (k0, v0) :: del rest k

/-- `Object.keys(o)` (equally, `Map.keys()`), in insertion order. -/
def keys {α : Type} (o : Obj α) : List String := o.map Prod.fst

/-- The object spread `{...a, ...b}`: every binding of `b` assigned onto `a`
in order. -/
def merge {α : Type} (a b : Obj α) : Obj α :=
  b.foldl (fun acc kv => acc.set kv.1 kv.2) a

end Obj

/-- JavaScript `String.prototype.trim()`: strip leading and trailing
whitespace. -/
def jsTrim (s : String) : String :=
  String.mk (((s.data.dropWhile Char.isWhitespace).reverse.dropWhile
    Char.isWhitespace).reverse)

/-! ## DocDiffer (src/unnamed/part_000)

The scraper's network and HTML-parsing effects are parameters: a `Net`
function maps a source either to the scraped heading list — each heading as
its raw `$(el).text()` and the content text the sibling walk extracts for
it — or to a thrown error; the `new Date().toISOString()` timestamp is a
parameter `ts`; the `docsPath` file is a `DifferState.fsContents` field
(`none` when missing or unparseable). -/

/-- One entry of `this.docSources`. -/
structure Source where
  name : String
  url : String
  selector : String
  contentSelector : String
  type : String
deriving DecidableEq, Repr

/-- One value of the documentation snapshot object. -/
structure Doc where
  title : String
  content : String
  source : String
  type : String
  url : String
  timestamp : String
deriving DecidableEq, Repr

/-- The constructor's `this.docSources` array. -/
def docSources : List Source :=
  [{ name := "Next.js Documentation", url := "https://nextjs.org/docs",
     selector := "[data-testid=\"subheading\"]", contentSelector := "p",
     type := "nextjs" },
   { name := "Tailwind CSS Documentation", url := "https://tailwindcss.com/docs",
     selector := "h2", contentSelector := "p", type := "tailwind" }]

/-- The network and HTML extraction, as seen by `fetchLatestDocs`: for a
source, either the list of scraped headings (raw heading text, extracted
content text) or a thrown fetch/parse error. -/
def Net : Type := Source → Except Unit (List (String × String))

/-- The `$(source.selector).each` loop body of `fetchLatestDocs`: trim the
heading text and add `latestDocs[type:title]` when both the title and the
extracted content are non-empty (both are falsy in JavaScript when empty). -/
def buildStep (source : Source) (ts : String) (latestDocs : Obj Doc)
    (item : String × String) : Obj Doc :=
  if jsTrim item.1 ≠ "" ∧ item.2 ≠ "" then
    latestDocs.set (source.type ++ ":" ++ jsTrim item.1)
      { title := jsTrim item.1, content := item.2, source := source.name,
        type := source.type, url := source.url, timestamp := ts }
  else latestDocs

/-- The `$(source.selector).each` loop of `fetchLatestDocs` over the scraped
headings, starting from the empty `latestDocs` object. -/
def buildDocs (source : Source) (ts : String)
    (items : List (String × String)) : Obj Doc :=
  items.foldl (buildStep source ts) []

/-- `DocDiffer.fetchLatestDocs`: on success the scraped entries, on any
thrown error the caught-and-logged empty object `{}`. -/
def fetchLatestDocs (net : Net) (ts : String) (source : Source) : Obj Doc :=
  match net source with
  | Except.ok items => buildDocs source ts items
  | Except.error _ => []

/-- The return value of `DocDiffer.findDifferences`. -/
structure DiffResult where
  newDocs : Obj Doc
  updatedDocs : Obj (Doc × String)
  removedDocs : Obj Doc
  newCount : Nat
  updatedCount : Nat
  removedCount : Nat
deriving DecidableEq, Repr

/-- The `Object.entries(latestDocs).forEach` body of `findDifferences`: a
key absent from the previous snapshot goes to `newDocs`, a key present with
different `content` goes to `updatedDocs` (the latest doc together with its
`previousContent`), anything else is left alone. -/
def diffStep (previousDocs : Obj Doc) (acc : Obj Doc × Obj (Doc × String))
    (kv : String × Doc) : Obj Doc × Obj (Doc × String) :=
  match previousDocs.lookup kv.1 with
  | none => (acc.1.set kv.1 kv.2, acc.2)
  | some existingDoc =>
    if existingDoc.content ≠ kv.2.content then
      (acc.1, acc.2.set kv.1 (kv.2, existingDoc.content))
    else acc

/-- The `Object.entries(this.previousDocs).forEach` body of
`findDifferences`: a key absent from `latestDocs` goes to `removedDocs`. -/
def removedStep (latestDocs : Obj Doc) (acc : Obj Doc) (kv : String × Doc) :
    Obj Doc :=
  if (latestDocs.lookup kv.1).isSome then acc else acc.set kv.1 kv.2

/-- `DocDiffer.findDifferences(latestDocs)` against `previousDocs`: one pass
over `latestDocs` fills `newDocs` and `updatedDocs`, one pass over
`previousDocs` fills `removedDocs`. -/
def findDifferences (previousDocs latestDocs : Obj Doc) : DiffResult :=
  let pair := latestDocs.foldl (diffStep previousDocs) ([], [])
  let removedDocs := previousDocs.foldl (removedStep latestDocs) []
  { newDocs := pair.1, updatedDocs := pair.2, removedDocs := removedDocs,
    newCount := pair.1.keys.length, updatedCount := pair.2.keys.length,
    removedCount := removedDocs.keys.length }

/-- The differ's persistent state: the in-memory `this.previousDocs` and the
contents of the `docsPath` JSON file (`none`: missing or unparseable). -/
structure DifferState where
  previousDocs : Obj Doc
  fsContents : Option (Obj Doc)
deriving DecidableEq, Repr

/-- `DocDiffer.loadPreviousDocs`: parse the snapshot file, `{}` on any
error. -/
def loadPreviousDocs (fsContents : Option (Obj Doc)) : Obj Doc :=
  fsContents.getD []

/-- The return value of `DocDiffer.processDocs`. -/
structure ProcessResult where
  success : Bool
  error : Option String
  latestDocs : Option (Obj Doc)
  differences : Option DiffResult
  processedSources : List String
deriving DecidableEq, Repr

/-- The `sourcesToProcess` selection of `processDocs`: the sources whose
`type` is listed, or all of `docSources` when no type is given. -/
def sourcesFor (sourceTypes : List String) : List Source :=
  if 0 < sourceTypes.length then
    docSources.filter (fun source => sourceTypes.contains source.type)
  else docSources

/-- The `latestDocs` merge of `processDocs`: fetch every selected source and
spread the results into one object, later sources winning on key clashes. -/
def latestFetched (net : Net) (ts : String) (sourceTypes : List String) :
    Obj Doc :=
  ((sourcesFor sourceTypes).map (fetchLatestDocs net ts)).foldl Obj.merge []

/-- `DocDiffer.processDocs(sourceTypes)`: select the sources, fail when none
match, otherwise fetch them all, diff against `this.previousDocs`, build the
merged snapshot (previous minus the removed keys, then every latest entry
assigned on top), write it to `docsPath` and install it as the new
`this.previousDocs`.  The `vscode.window.withProgress` notification block is
pure UI feedback (a delay loop) and is not modelled. -/
def processDocs (net : Net) (ts : String) (st : DifferState)
    (sourceTypes : List String) : ProcessResult × DifferState :=
  let sourcesToProcess := sourcesFor sourceTypes
  if sourcesToProcess.length = 0 then
    ({ success := false,
       error := some "No valid documentation sources specified",
       latestDocs := none, differences := none, processedSources := [] }, st)
  else
    let latestDocs := latestFetched net ts sourceTypes
    let differences := findDifferences st.previousDocs latestDocs
    let mergedDocs :=
      differences.removedDocs.foldl (fun acc kv => acc.del kv.1)
        st.previousDocs
    let mergedDocs :=
      latestDocs.foldl (fun acc kv => acc.set kv.1 kv.2) mergedDocs
    ({ success := true, error := none, latestDocs := some mergedDocs,
       differences := some differences,
       processedSources := sourcesToProcess.map (fun source => source.name) },
     { previousDocs := mergedDocs, fsContents := some mergedDocs })

/-! ## StorageManager (src/storage-manager.js)

The `user-data.json` record is the state; `new Date().toISOString().split('T')[0]`
is the explicit `today` parameter of each operation that reads the clock. -/

/-- The `usage` record of `user-data.json`. -/
structure Usage where
  lastResetDate : String
  completions : Nat
  docRefreshes : Nat
  contextDepth : String
deriving DecidableEq, Repr

/-- The whole `user-data.json` record. -/
structure UserData where
  plan : String
  usage : Usage
deriving DecidableEq, Repr

/-- `StorageManager.getDailyUsage`: reset the counters and stamp today's
date when the stored `lastResetDate` is not today, then return the usage
record; the second component is the saved state. -/
def getDailyUsage (today : String) (d : UserData) : Usage × UserData :=
  if d.usage.lastResetDate ≠ today then
    let usage : Usage :=
      { lastResetDate := today, completions := 0, docRefreshes := 0,
        contextDepth := d.usage.contextDepth }
    (usage, { d with usage := usage })
  else (d.usage, d)

/-- `StorageManager.incrementDailyUsage(feature)`: take the (possibly just
reset) daily usage, bump the matching counter, and save it back. -/
def incrementDailyUsage (feature : String) (today : String) (d : UserData) :
    Usage × UserData :=
  let usage := (getDailyUsage today d).1
  let usage :=
    if feature = "completions" then
      { usage with completions := usage.completions + 1 }
    else if feature = "docRefreshes" then
      { usage with docRefreshes := usage.docRefreshes + 1 }
    else usage
  (usage, { d with usage := usage })

/-- `StorageManager.setUserPlan(plan)`. -/
def setUserPlan (plan : String) (d : UserData) : UserData :=
  { d with plan := plan }

/-- `StorageManager.setContextDepth(depth)`. -/
def setContextDepth (depth : String) (d : UserData) : UserData :=
  { d with usage := { d.usage with contextDepth := depth } }

/-- One StorageManager call, with the calendar date the clock reads during
it where the method reads the clock. -/
inductive StorageOp where
  | getUsage (today : String)
  | increment (feature today : String)
  | setPlan (plan : String)
  | setDepth (depth : String)
deriving DecidableEq, Repr

/-- Run one StorageManager call against the stored record. -/
def applyOp (d : UserData) : StorageOp → UserData
  | StorageOp.getUsage today => (getDailyUsage today d).2
  | StorageOp.increment feature today => (incrementDailyUsage feature today d).2
  | StorageOp.setPlan plan => setUserPlan plan d
  | StorageOp.setDepth depth => setContextDepth depth d

/-- The date an operation reads from the clock, when it reads one. -/
def opToday : StorageOp → Option String
  | StorageOp.getUsage today => some today
  | StorageOp.increment _ today => some today
  | StorageOp.setPlan _ => none
  | StorageOp.setDepth _ => none

/-- Whether an operation invokes the day-rollover reset inside
`getDailyUsage` (directly, or through `incrementDailyUsage`). -/
def didReset (d : UserData) : StorageOp → Bool
  | StorageOp.getUsage today => decide (d.usage.lastResetDate ≠ today)
  | StorageOp.increment _ today => decide (d.usage.lastResetDate ≠ today)
  | StorageOp.setPlan _ => false
  | StorageOp.setDepth _ => false

/-- Whether an operation goes through `getDailyUsage` at all. -/
def isUsageOp : StorageOp → Bool
  | StorageOp.getUsage _ => true
  | StorageOp.increment _ _ => true
  | StorageOp.setPlan _ => false
  | StorageOp.setDepth _ => false

/-- Run a call sequence. -/
def runOps (d : UserData) : List StorageOp → UserData
  | [] => d
  | op :: rest => runOps (applyOp d op) rest

/-- How many calls of the sequence hit the day-rollover reset. -/
def resetCount (d : UserData) : List StorageOp → Nat
  | [] => 0
  | op :: rest =>
    (if didReset d op then 1 else 0) + resetCount (applyOp d op) rest

/-! ## ContextExtractor caches (src/CHANGELOG.md, concatenated source)

Only the cache-insertion code paths are embedded: the editor context or
query result being stored is an opaque value.  `this.cache.contextQueries`
and `this.cache.relevantDocs` are insertion-ordered `Map`s, so `Obj` with
`Map.keys().next().value` as the head key. -/

/-- The cache store of `extractActiveEditorContext`: evict the oldest entry
when the map holds more than 50 entries, then insert. -/
def storeContextQuery {α : Type} (contextQueries : Obj α) (cacheKey : String)
    (result : α) : Obj α :=
  let contextQueries :=
    if contextQueries.length > 50 then
      contextQueries.del (contextQueries.keys.headD "")
    else contextQueries
  contextQueries.set cacheKey result

/-- The cache store of `findRelevantDocs` and `getContextAndDocs`: evict the
oldest entry when the map holds more than 30 entries, then insert. -/
def storeRelevantDoc {α : Type} (relevantDocs : Obj α) (cacheKey : String)
    (result : α) : Obj α :=
  let relevantDocs :=
    if relevantDocs.length > 30 then
      relevantDocs.del (relevantDocs.keys.headD "")
    else relevantDocs
  relevantDocs.set cacheKey result

/-- A whole insertion sequence into the `contextQueries` cache, from the
empty map the constructor builds. -/
def runContextQueryStores {α : Type} (inserts : List (String × α)) : Obj α :=
  inserts.foldl (fun cache kv => storeContextQuery cache kv.1 kv.2) []

/-- A whole insertion sequence into the `relevantDocs` cache, from the
empty map the constructor builds. -/
def runRelevantDocStores {α : Type} (inserts : List (String × α)) : Obj α :=
  inserts.foldl (fun cache kv => storeRelevantDoc cache kv.1 kv.2) []

/-! ## WebviewPanel (src/webview-panel.js)

The panel state keeps the `isProcessing` flag, `messageHistory`, and the
ordered list of messages posted to the webview.  The awaited body of each
handler (context extraction, response generation, `processDocs` plus
`updateCollection`) is a parameter: `Except.ok` when it runs to completion,
`Except.error` when it throws. -/

/-- A `panel.webview.postMessage` payload. -/
inductive WebviewMsg where
  | aiResponse (text : String) (status : String) (isMarkdown : Bool)
  | refreshStatus (status : String) (message : Option String)
      (isRefreshing : Option Bool) (summary : Option (Nat × Nat × Nat))
deriving DecidableEq, Repr

/-- The WebviewPanel state the handlers touch. -/
structure PanelState where
  isProcessing : Bool
  messageHistory : List (String × String)
  posted : List WebviewMsg
deriving DecidableEq, Repr

/-- The busy-reply of `handleAiQuery`. -/
def stillProcessingMsg : WebviewMsg :=
  WebviewMsg.aiResponse
    "I\x27m still processing your previous request. Please wait a moment..."
    "info" false

/-- The processing notice `handleAiQuery` posts before its try block. -/
def processingMsg : WebviewMsg :=
  WebviewMsg.aiResponse "Processing your query..." "processing" false

/-- The catch-block reply of `handleAiQuery`. -/
def aiErrorMsg (e : String) : WebviewMsg :=
  WebviewMsg.aiResponse
    ("I encountered an error while processing your request: " ++ e ++
      ". Please try again.")
    "error" false

/-- `WebviewPanel.handleAiQuery(query)`: reject when busy; otherwise set the
flag, record the user message, post the processing notice, then either
record and post the generated response or post the caught error, and clear
the flag in `finally`. -/
def handleAiQuery (st : PanelState) (query : String)
    (outcome : Except String String) : PanelState :=
  if st.isProcessing then
    { st with posted := st.posted ++ [stillProcessingMsg] }
  else
    let st :=
      { st with
          isProcessing := true,
          messageHistory := st.messageHistory ++ [("user", query)],
          posted := st.posted ++ [processingMsg] }
    match outcome with
    | Except.ok response =>
      { st with
        messageHistory := st.messageHistory ++ [("assistant", response)],
        posted := st.posted ++ [WebviewMsg.aiResponse response "complete" true],
        isProcessing := false }
    | Except.error e =>
      { st with posted := st.posted ++ [aiErrorMsg e], isProcessing := false }

/-- The busy-reply of `handleRefreshDocs`. -/
def refreshBusyMsg : WebviewMsg :=
  WebviewMsg.refreshStatus "error"
    (some "Already processing a request. Please wait.") none none

/-- The start notice of `handleRefreshDocs`. -/
def refreshingMsg : WebviewMsg :=
  WebviewMsg.refreshStatus "Refreshing documentation..." none (some true) none

/-- The success summary `handleRefreshDocs` posts. -/
def refreshDoneMsg (n u r : Nat) : WebviewMsg :=
  WebviewMsg.refreshStatus
    ("Documentation refreshed! New: " ++ toString n ++ ", Updated: " ++
      toString u ++ ", Removed: " ++ toString r)
    none (some false) (some (n, u, r))

/-- The chat notice `handleRefreshDocs` posts on success. -/
def refreshDoneChatMsg (n u r : Nat) : WebviewMsg :=
  WebviewMsg.aiResponse
    ("## Documentation Updated\n\nI\x27ve refreshed the documentation database:\n- "
      ++ toString n ++ " new documents added\n- " ++ toString u ++
      " documents updated\n- " ++ toString r ++
      " documents removed\n\nYou now have access to the latest Next.js and Tailwind CSS documentation!")
    "info" true

/-- The catch-block status of `handleRefreshDocs`. -/
def refreshErrMsg (e : String) : WebviewMsg :=
  WebviewMsg.refreshStatus ("Error: " ++ e) none (some false) none

/-- The catch-block chat reply of `handleRefreshDocs`. -/
def refreshErrChatMsg (e : String) : WebviewMsg :=
  WebviewMsg.aiResponse
    ("I encountered an error while refreshing the documentation: " ++ e ++
      ". Please try again later.")
    "error" false

/-- `WebviewPanel.handleRefreshDocs()`: reject when busy; otherwise set the
flag, post the refreshing notice, then either post the summary and chat
notice of a successful `processDocs`/`updateCollection` run (its diff counts
new/updated/removed) or post the caught error, and clear the flag in
`finally`. -/
def handleRefreshDocs (st : PanelState)
    (outcome : Except String (Nat × Nat × Nat)) : PanelState :=
  if st.isProcessing then
    { st with posted := st.posted ++ [refreshBusyMsg] }
  else
    let st :=
      { st with
          isProcessing := true,
          posted := st.posted ++ [refreshingMsg] }
    match outcome with
    | Except.ok (n, u, r) =>
      { st with
        posted := st.posted ++ [refreshDoneMsg n u r, refreshDoneChatMsg n u r],
        isProcessing := false }
    | Except.error e =>
      { st with
        posted := st.posted ++ [refreshErrMsg e, refreshErrChatMsg e],
        isProcessing := false }

/-! ## DocumentationService (src/documentation-service.js)

The fetch backends are one oracle `fetch type query`; awaiting an already
pending request for the same key is the oracle `pending cacheKey`; `now` is
`Date.now()`.  The `fetchLog` field records every fetch the service issues. -/

/-- A result the service returns: the fetched or cached payload, or an
error record such as `{ error: 'Query cannot be empty' }`. -/
inductive DocResponse where
  | err (msg : String)
  | payload (data : String)
deriving DecidableEq, Repr

/-- One entry of `this.cache`. -/
structure CacheEntry where
  data : DocResponse
  timestamp : Nat
deriving DecidableEq, Repr

/-- The DocumentationService state. -/
structure DocServiceState where
  cache : Obj CacheEntry
  pendingRequests : Obj Unit
  fetchLog : List String
deriving DecidableEq, Repr

/-- `this.cacheTTL`: one hour in milliseconds. -/
def cacheTTL : Nat := 3600000

/-- `DocumentationService.getDocumentation(query, type)`: reject a missing,
empty or whitespace-only query; serve a fresh cache hit; join an already
pending request; otherwise fetch, cache the result stamped `now`, and log
the fetch (the pending-map entry the request holds while in flight is
deleted again in its `finally`). -/
def getDocumentation (st : DocServiceState) (query : Option String)
    (type0 : Option String) (now : Nat) (fetch : String → String → DocResponse)
    (pending : String → DocResponse) : DocResponse × DocServiceState :=
  match query with
  | none => (DocResponse.err "Query cannot be empty", st)
  | some q =>
    if q = "" ∨ jsTrim q = "" then
      (DocResponse.err "Query cannot be empty", st)
    else
      let q := jsTrim q
      let ty := match type0 with
        | none => "auto"
        | some t => if t = "" then "auto" else t
      let cacheKey := ty ++ ":" ++ q
      match st.cache.lookup cacheKey with
      | some entry =>
        if now - entry.timestamp < cacheTTL then (entry.data, st)
        else
          match st.pendingRequests.lookup cacheKey with
          | some _ => (pending cacheKey, st)
          | none =>
            let result := fetch ty q
            (result,
             { st with
               cache := st.cache.set cacheKey
                 { data := result, timestamp := now },
               fetchLog := st.fetchLog ++ [cacheKey] })
      | none =>
        match st.pendingRequests.lookup cacheKey with
        | some _ => (pending cacheKey, st)
        | none =>
          let result := fetch ty q
          (result,
           { st with
             cache := st.cache.set cacheKey
               { data := result, timestamp := now },
             fetchLog := st.fetchLog ++ [cacheKey] })

/-! ## Webview-side script (src/unnamed/part_002)

Two syntactic facts of `media/main.js` are embedded: the ordered `const`
declarations of the IIFE scope (lines 21 to 34) and the ordered `case`
labels of the `window.addEventListener("message", ...)` switch (lines 616
to 795), together with the first-match dispatch JavaScript `switch` uses
(every branch of this switch ends in `break` or the end of the switch). -/

/-- The identifiers bound by `const` in the DOM-elements block, in source
order. -/
def webviewConstDeclarations : List String :=
  ["chatContainer", "userInput", "sendButton", "clearInputButton",
   "refreshDocsButton", "docStatus", "docStatusIndicator", "clearChatButton",
   "getContextButton", "codeSuggestionsButton", "docsSearchButton",
   "apiDocsButton", "settingsButton", "apiDocsButton"]

/-- The `case` labels of the message-handler switch, in source order. -/
def messageSwitchCases : List String :=
  ["aiResponse", "showSettings", "settingsSaved", "refreshStatus",
   "docResponse", "docResponse"]

/-- JavaScript `switch` dispatch over `break`-terminated cases: the index of
the first label equal to the scrutinee, if any. -/
def switchTarget (cmd : String) : List String → Option Nat
  | [] => none
  | c :: rest =>
    if c = cmd then some 0 else (switchTarget cmd rest).map (· + 1)

/-! ## Concrete fixtures used to evaluate the development -/

/-- A concrete snapshot entry. -/
def docC1 (c : String) : Doc :=
  { title := "T", content := c, source := "Next.js Documentation",
    type := "nextjs", url := "https://nextjs.org/docs", timestamp := "t0" }

/-- A previous snapshot with the single key `nextjs:A`. -/
def prevC1 : Obj Doc := [("nextjs:A", docC1 "a")]

/-- A latest snapshot with the single key `nextjs:B`. -/
def latestC1 : Obj Doc := [("nextjs:B", docC1 "b")]

/-- A network where only the Next.js source answers. -/
def netC2 : Net := fun source =>
  if source.type = "nextjs" then Except.ok [("Routing", "routing docs")]
  else Except.error ()

/-- A fresh differ state: nothing fetched yet, no snapshot file. -/
def stC2 : DifferState := { previousDocs := [], fsContents := none }

/-- A stored user record one day before the clock date used below. -/
def dC3 : UserData :=
  { plan := "free",
    usage := { lastResetDate := "2024-01-01", completions := 3,
               docRefreshes := 1, contextDepth := "file" } }

/-- A call sequence whose clock reads all fall on 2024-01-02. -/
def opsC3 : List StorageOp :=
  [StorageOp.getUsage "2024-01-02",
   StorageOp.increment "completions" "2024-01-02",
   StorageOp.setPlan "pro"]

/-- Distinct cache keys for exercising the extractor caches. -/
def cacheKeysC4 (n : Nat) : List (String × Unit) :=
  (List.range n).map (fun i => (String.mk (List.replicate i 'a'), ()))

/-- A panel that is in the middle of processing a request. -/
def stC5 : PanelState :=
  { isProcessing := true, messageHistory := [], posted := [] }

/-- A network where the Tailwind source throws. -/
def netC6 : Net := fun source =>
  if source.type = "tailwind" then Except.error ()
  else Except.ok [("Routing", "routing docs")]

/-- The Tailwind entry of `docSources`. -/
def srcC6 : Source :=
  { name := "Tailwind CSS Documentation", url := "https://tailwindcss.com/docs",
    selector := "h2", contentSelector := "p", type := "tailwind" }

/-- A fresh differ state for the failure-isolation run. -/
def stC6 : DifferState := { previousDocs := [], fsContents := none }

/-- Scraped headings: one valid, one with a blank title, one with empty
content. -/
def itemsC7 : List (String × String) :=
  [("  Routing  ", "routing docs"), ("", "orphan"), ("Install", "")]

/-- A network answering every source with `itemsC7`. -/
def netC7 : Net := fun _ => Except.ok itemsC7

/-- The Next.js entry of `docSources`. -/
def srcC7 : Source :=
  { name := "Next.js Documentation", url := "https://nextjs.org/docs",
    selector := "[data-testid=\"subheading\"]", contentSelector := "p",
    type := "nextjs" }

/-- A fresh documentation-service state. -/
def stC9 : DocServiceState :=
  { cache := [], pendingRequests := [], fetchLog := [] }

/-- An idle panel with some history. -/
def stC10 : PanelState :=
  { isProcessing := false, messageHistory := [("user", "hi")], posted := [] }

/-! ## Lemmas about the object model -/

namespace Obj

theorem mem_keys_iff_exists {α : Type} (o : Obj α) (k : String) :
    k ∈ o.keys ↔ ∃ v, (k, v) ∈ o := by
  induction o with
  | nil => simp [keys]
  | cons kv rest ih =>
    obtain ⟨k0, v0⟩ := kv
    simp only [keys, List.map_cons, List.mem_cons] at *
    constructor
    · rintro (rfl | h)
      · exact ⟨v0, Or.inl rfl⟩
      · obtain ⟨v, hv⟩ := ih.mp h
        exact ⟨v, Or.inr hv⟩
    · rintro ⟨v, h | h⟩
      · left
        exact congrArg Prod.fst h
      · right
        exact ih.mpr ⟨v, h⟩

theorem lookup_eq_none_iff {α : Type} (o : Obj α) (k : String) :
    o.lookup k = none ↔ k ∉ o.keys := by
  induction o with
  | nil => simp [lookup, keys]
  | cons kv rest ih =>
    obtain ⟨k0, v0⟩ := kv
    simp only [lookup, keys, List.map_cons, List.mem_cons]
    by_cases h : k0 = k <;> simp [h, ih, keys, Ne.symm]

theorem lookup_isSome_iff {α : Type} (o : Obj α) (k : String) :
    (o.lookup k).isSome = true ↔ k ∈ o.keys := by
  rcases h : o.lookup k with _ | v
  · simpa using (lookup_eq_none_iff o k).mp h
  · simp only [Option.isSome_some, true_iff]
    by_contra hk
    rw [(lookup_eq_none_iff o k).mpr hk] at h
    exact Option.noConfusion h

theorem mem_keys_set {α : Type} (o : Obj α) (k : String) (v : α) (j : String) :
    j ∈ (o.set k v).keys ↔ j ∈ o.keys ∨ j = k := by
  induction o with
  | nil => simp [set, keys]
  | cons kv rest ih =>
    obtain ⟨k0, v0⟩ := kv
    simp only [keys] at ih ⊢
    by_cases h : k0 = k
    · simp only [set, if_pos h, List.map_cons, List.mem_cons]
      subst h
      tauto
    · simp only [set, if_neg h, List.map_cons, List.mem_cons]
      rw [ih]
      tauto

theorem lookup_set_self {α : Type} (o : Obj α) (k : String) (v : α) :
    (o.set k v).lookup k = some v := by
  induction o with
  | nil => simp [set, lookup]
  | cons kv rest ih =>
    obtain ⟨k0, v0⟩ := kv
    by_cases h : k0 = k
    · simp [set, if_pos h, lookup]
    · simp only [set, if_neg h, lookup, if_neg h, ih]

theorem lookup_set_ne {α : Type} (o : Obj α) (k : String) (v : α) (j : String)
    (hj : j ≠ k) : (o.set k v).lookup j = o.lookup j := by
  induction o with
  | nil => simp only [set, lookup, if_neg (Ne.symm hj)]
  | cons kv rest ih =>
    obtain ⟨k0, v0⟩ := kv
    by_cases h : k0 = k
    · subst h
      simp only [set, if_pos rfl, lookup, if_neg (Ne.symm hj)]
    · simp only [set, if_neg h, lookup, ih]

theorem length_set_le {α : Type} (o : Obj α) (k : String) (v : α) :
    (o.set k v).length ≤ o.length + 1 := by
  induction o with
  | nil => simp [set]
  | cons kv rest ih =>
    obtain ⟨k0, v0⟩ := kv
    simp only [set]
    by_cases h : k0 = k
    · simp [h]
    · simp only [if_neg h, List.length_cons]
      omega

theorem set_eq_append {α : Type} (o : Obj α) (k : String) (v : α)
    (h : k ∉ o.keys) : o.set k v = o ++ [(k, v)] := by
  induction o with
  | nil => simp [set]
  | cons kv rest ih =>
    obtain ⟨k0, v0⟩ := kv
    simp only [keys, List.map_cons, List.mem_cons] at h
    push_neg at h
    simp only [set, if_neg (Ne.symm h.1), List.cons_append]
    rw [ih (by simpa [keys] using h.2)]

theorem keys_nodup_set {α : Type} (o : Obj α) (k : String) (v : α)
    (h : o.keys.Nodup) : (o.set k v).keys.Nodup := by
  induction o with
  | nil => simp [set, keys]
  | cons kv rest ih =>
    obtain ⟨k0, v0⟩ := kv
    simp only [keys, List.map_cons, List.nodup_cons] at h
    by_cases he : k0 = k
    · simp only [set, if_pos he, keys, List.map_cons, List.nodup_cons]
      subst he
      exact ⟨by simpa [keys] using h.1, h.2⟩
    · simp only [set, if_neg he, keys, List.map_cons, List.nodup_cons]
      constructor
      · have hm := mem_keys_set rest k v k0
        simp only [keys] at hm
        rw [hm]
        rintro (hmem | rfl)
        · exact h.1 (by simpa [keys] using hmem)
        · exact he rfl
      · have := ih h.2
        simpa [keys] using this

theorem mem_keys_del {α : Type} (o : Obj α) (k : String) (j : String) :
    j ∈ (o.del k).keys ↔ j ∈ o.keys ∧ j ≠ k := by
  induction o with
  | nil => simp [del, keys]
  | cons kv rest ih =>
    obtain ⟨k0, v0⟩ := kv
    simp only [keys] at ih ⊢
    by_cases h : k0 = k
    · simp only [del, if_pos h, List.map_cons, List.mem_cons]
      rw [ih]
      subst h
      constructor
      · rintro ⟨hm, hne⟩
        exact ⟨Or.inr hm, hne⟩
      · rintro ⟨rfl | hm, hne⟩
        · exact absurd rfl hne
        · exact ⟨hm, hne⟩
    · simp only [del, if_neg h, List.map_cons, List.mem_cons]
      rw [ih]
      constructor
      · rintro (rfl | ⟨hm, hne⟩)
        · exact ⟨Or.inl rfl, fun he => h (he ▸ rfl)⟩
        · exact ⟨Or.inr hm, hne⟩
      · rintro ⟨rfl | hm, hne⟩
        · exact Or.inl rfl
        · exact Or.inr ⟨hm, hne⟩

theorem length_del_le {α : Type} (o : Obj α) (k : String) :
    (o.del k).length ≤ o.length := by
  induction o with
  | nil => simp [del]
  | cons kv rest ih =>
    obtain ⟨k0, v0⟩ := kv
    simp only [del]
    by_cases h : k0 = k
    · simp only [if_pos h, List.length_cons]
      omega
    · simp only [if_neg h, List.length_cons]
      omega

theorem length_del_lt {α : Type} (o : Obj α) (k : String) (h : k ∈ o.keys) :
    (o.del k).length < o.length := by
  induction o with
  | nil => simp [keys] at h
  | cons kv rest ih =>
    obtain ⟨k0, v0⟩ := kv
    simp only [del]
    by_cases he : k0 = k
    · simp only [if_pos he, List.length_cons]
      exact Nat.lt_succ_of_le (length_del_le rest k)
    · simp only [keys, List.map_cons, List.mem_cons] at h
      rcases h with rfl | h
      · exact absurd rfl he
      · simp only [if_neg he, List.length_cons]
        exact Nat.succ_lt_succ (ih h)

theorem del_eq_self {α : Type} (o : Obj α) (k : String) (h : k ∉ o.keys) :
    o.del k = o := by
  induction o with
  | nil => simp [del]
  | cons kv rest ih =>
    obtain ⟨k0, v0⟩ := kv
    simp only [keys, List.map_cons, List.mem_cons] at h
    push_neg at h
    simp only [del, if_neg (Ne.symm h.1)]
    rw [ih (by simpa [keys] using h.2)]

theorem mem_keys_foldl_set {α : Type} (l : List (String × α)) (acc : Obj α)
    (j : String) :
    j ∈ (l.foldl (fun acc kv => acc.set kv.1 kv.2) acc).keys ↔
      j ∈ acc.keys ∨ j ∈ l.map Prod.fst := by
  induction l generalizing acc with
  | nil => simp
  | cons kv rest ih =>
    simp only [List.foldl_cons, List.map_cons, List.mem_cons]
    rw [ih, mem_keys_set]
    tauto

theorem mem_keys_merge {α : Type} (a b : Obj α) (j : String) :
    j ∈ (a.merge b).keys ↔ j ∈ a.keys ∨ j ∈ b.keys := by
  simpa [merge, keys] using mem_keys_foldl_set b a j

theorem mem_keys_foldl_del {α β : Type} (l : List (String × β)) (acc : Obj α)
    (j : String) :
    j ∈ (l.foldl (fun acc kv => acc.del kv.1) acc).keys ↔
      j ∈ acc.keys ∧ j ∉ l.map Prod.fst := by
  induction l generalizing acc with
  | nil => simp
  | cons kv rest ih =>
    simp only [List.foldl_cons, List.map_cons, List.mem_cons]
    rw [ih, mem_keys_del]
    tauto

theorem foldl_set_eq_append {α : Type} (l : List (String × α)) (acc : Obj α)
    (hdisj : ∀ j ∈ l.map Prod.fst, j ∉ acc.keys)
    (hnodup : (l.map Prod.fst).Nodup) :
    l.foldl (fun acc kv => acc.set kv.1 kv.2) acc = acc ++ l := by
  induction l generalizing acc with
  | nil => simp
  | cons kv rest ih =>
    simp only [List.map_cons, List.nodup_cons] at hnodup
    simp only [List.foldl_cons]
    rw [set_eq_append acc kv.1 kv.2 (hdisj kv.1 (by simp))]
    rw [ih (acc ++ [(kv.1, kv.2)])
      (by
        intro j hj
        simp only [keys, List.map_append, List.mem_append, List.map_cons,
          List.map_nil, List.mem_singleton]
        rintro (hja | hjk)
        · exact hdisj j (by simp [hj]) (by simpa [keys] using hja)
        · exact hnodup.1 (hjk ▸ hj))
      hnodup.2]
    cases kv
    simp

theorem lookup_eq_some_iff {α : Type} (o : Obj α) (j : String) (v : α)
    (h : o.keys.Nodup) : o.lookup j = some v ↔ (j, v) ∈ o := by
  induction o with
  | nil => simp [lookup]
  | cons kv rest ih =>
    obtain ⟨k0, v0⟩ := kv
    simp only [keys, List.map_cons, List.nodup_cons] at h
    by_cases he : k0 = j
    · subst he
      simp only [lookup, if_pos rfl, Option.some.injEq, List.mem_cons,
        Prod.mk.injEq, true_and, eq_self_iff_true, if_true]
      constructor
      · intro hv
        exact Or.inl hv.symm
      · rintro (rfl | hmem)
        · rfl
        · refine absurd ((mem_keys_iff_exists rest k0).mpr ⟨v, hmem⟩) ?_
          simpa [keys] using h.1
    · simp only [lookup, if_neg he, List.mem_cons, Prod.mk.injEq]
      rw [ih h.2]
      constructor
      · intro hm
        exact Or.inr hm
      · rintro (⟨rfl, rfl⟩ | hm)
        · exact absurd rfl he
        · exact hm

end Obj

/-! ## Lemmas about DocDiffer -/

theorem diffStep_none (prev : Obj Doc) (acc : Obj Doc × Obj (Doc × String))
    (kv : String × Doc) (h : prev.lookup kv.1 = none) :
    diffStep prev acc kv = (acc.1.set kv.1 kv.2, acc.2) := by
  simp [diffStep, h]

theorem diffStep_some_ne (prev : Obj Doc) (acc : Obj Doc × Obj (Doc × String))
    (kv : String × Doc) (e : Doc) (h : prev.lookup kv.1 = some e)
    (hc : e.content ≠ kv.2.content) :
    diffStep prev acc kv = (acc.1, acc.2.set kv.1 (kv.2, e.content)) := by
  simp [diffStep, h, hc]

theorem diffStep_some_eq (prev : Obj Doc) (acc : Obj Doc × Obj (Doc × String))
    (kv : String × Doc) (e : Doc) (h : prev.lookup kv.1 = some e)
    (hc : e.content = kv.2.content) : diffStep prev acc kv = acc := by
  simp [diffStep, h, hc]

theorem diff_fold_fst_mem (prev : Obj Doc) (l : List (String × Doc))
    (acc : Obj Doc × Obj (Doc × String)) (j : String) :
    j ∈ (l.foldl (diffStep prev) acc).1.keys ↔
      j ∈ acc.1.keys ∨ ∃ v, (j, v) ∈ l ∧ prev.lookup j = none := by
  induction l generalizing acc with
  | nil => simp
  | cons kv rest ih =>
    obtain ⟨k, v⟩ := kv
    simp only [List.foldl_cons]
    rcases h : prev.lookup k with _ | e
    · rw [diffStep_none prev acc (k, v) h, ih, Obj.mem_keys_set]
      constructor
      · rintro ((hj | rfl) | ⟨w, hw, hn⟩)
        · exact Or.inl hj
        · exact Or.inr ⟨v, List.mem_cons_self _ _, h⟩
        · exact Or.inr ⟨w, List.mem_cons_of_mem _ hw, hn⟩
      · rintro (hj | ⟨w, hw, hn⟩)
        · exact Or.inl (Or.inl hj)
        · rcases List.mem_cons.mp hw with heq | hmem
          · exact Or.inl (Or.inr (congrArg Prod.fst heq))
          · exact Or.inr ⟨w, hmem, hn⟩
    · have tail_iff : (∃ w, (j, w) ∈ (k, v) :: rest ∧ prev.lookup j = none) ↔
          ∃ w, (j, w) ∈ rest ∧ prev.lookup j = none := by
        constructor
        · rintro ⟨w, hw, hn⟩
          rcases List.mem_cons.mp hw with heq | hmem
          · have hjk : j = k := congrArg Prod.fst heq
            rw [hjk, h] at hn
            exact absurd hn (by simp)
          · exact ⟨w, hmem, hn⟩
        · rintro ⟨w, hw, hn⟩
          exact ⟨w, List.mem_cons_of_mem _ hw, hn⟩
      by_cases hc : e.content ≠ v.content
      · rw [diffStep_some_ne prev acc (k, v) e h hc, ih, tail_iff]
      · push_neg at hc
        rw [diffStep_some_eq prev acc (k, v) e h hc, ih, tail_iff]

theorem diff_fold_snd_mem (prev : Obj Doc) (l : List (String × Doc))
    (acc : Obj Doc × Obj (Doc × String)) (j : String) :
    j ∈ (l.foldl (diffStep prev) acc).2.keys ↔
      j ∈ acc.2.keys ∨
        ∃ v e, (j, v) ∈ l ∧ prev.lookup j = some e ∧
          e.content ≠ v.content := by
  induction l generalizing acc with
  | nil => simp
  | cons kv rest ih =>
    obtain ⟨k, v⟩ := kv
    simp only [List.foldl_cons]
    rcases h : prev.lookup k with _ | e
    · rw [diffStep_none prev acc (k, v) h, ih]
      constructor
      · rintro (hj | ⟨w, e, hw, hs, hne⟩)
        · exact Or.inl hj
        · exact Or.inr ⟨w, e, List.mem_cons_of_mem _ hw, hs, hne⟩
      · rintro (hj | ⟨w, e, hw, hs, hne⟩)
        · exact Or.inl hj
        · rcases List.mem_cons.mp hw with heq | hmem
          · have hjk : j = k := congrArg Prod.fst heq
            rw [hjk, h] at hs
            exact absurd hs (by simp)
          · exact Or.inr ⟨w, e, hmem, hs, hne⟩
    · by_cases hc : e.content ≠ v.content
      · rw [diffStep_some_ne prev acc (k, v) e h hc, ih, Obj.mem_keys_set]
        constructor
        · rintro ((hj | rfl) | ⟨w, e2, hw, hs, hne⟩)
          · exact Or.inl hj
          · exact Or.inr ⟨v, e, List.mem_cons_self _ _, h, hc⟩
          · exact Or.inr ⟨w, e2, List.mem_cons_of_mem _ hw, hs, hne⟩
        · rintro (hj | ⟨w, e2, hw, hs, hne⟩)
          · exact Or.inl (Or.inl hj)
          · rcases List.mem_cons.mp hw with heq | hmem
            · exact Or.inl (Or.inr (congrArg Prod.fst heq))
            · exact Or.inr ⟨w, e2, hmem, hs, hne⟩
      · push_neg at hc
        rw [diffStep_some_eq prev acc (k, v) e h hc, ih]
        constructor
        · rintro (hj | ⟨w, e2, hw, hs, hne⟩)
          · exact Or.inl hj
          · exact Or.inr ⟨w, e2, List.mem_cons_of_mem _ hw, hs, hne⟩
        · rintro (hj | ⟨w, e2, hw, hs, hne⟩)
          · exact Or.inl hj
          · rcases List.mem_cons.mp hw with heq | hmem
            · exfalso
              have hjk : j = k := congrArg Prod.fst heq
              have hwv : w = v := congrArg Prod.snd heq
              rw [hjk, h] at hs
              have he2 : e2 = e := by
                injection hs.symm
              rw [he2, hwv] at hne
              exact hne hc
            · exact Or.inr ⟨w, e2, hmem, hs, hne⟩

theorem removedStep_some (latest : Obj Doc) (acc : Obj Doc)
    (kv : String × Doc) (h : (latest.lookup kv.1).isSome = true) :
    removedStep latest acc kv = acc := by
  simp [removedStep, h]

theorem removedStep_none (latest : Obj Doc) (acc : Obj Doc)
    (kv : String × Doc) (h : latest.lookup kv.1 = none) :
    removedStep latest acc kv = acc.set kv.1 kv.2 := by
  simp [removedStep, h]

theorem removed_fold_mem (latest : Obj Doc) (l : List (String × Doc))
    (acc : Obj Doc) (j : String) :
    j ∈ (l.foldl (removedStep latest) acc).keys ↔
      j ∈ acc.keys ∨ ∃ v, (j, v) ∈ l ∧ latest.lookup j = none := by
  induction l generalizing acc with
  | nil => simp
  | cons kv rest ih =>
    obtain ⟨k, v⟩ := kv
    simp only [List.foldl_cons]
    rcases h : latest.lookup k with _ | e
    · rw [removedStep_none latest acc (k, v) h, ih, Obj.mem_keys_set]
      constructor
      · rintro ((hj | rfl) | ⟨w, hw, hn⟩)
        · exact Or.inl hj
        · exact Or.inr ⟨v, List.mem_cons_self _ _, h⟩
        · exact Or.inr ⟨w, List.mem_cons_of_mem _ hw, hn⟩
      · rintro (hj | ⟨w, hw, hn⟩)
        · exact Or.inl (Or.inl hj)
        · rcases List.mem_cons.mp hw with heq | hmem
          · exact Or.inl (Or.inr (congrArg Prod.fst heq))
          · exact Or.inr ⟨w, hmem, hn⟩
    · rw [removedStep_some latest acc (k, v) (by simp [h]), ih]
      constructor
      · rintro (hj | ⟨w, hw, hn⟩)
        · exact Or.inl hj
        · exact Or.inr ⟨w, List.mem_cons_of_mem _ hw, hn⟩
      · rintro (hj | ⟨w, hw, hn⟩)
        · exact Or.inl hj
        · rcases List.mem_cons.mp hw with heq | hmem
          · have hjk : j = k := congrArg Prod.fst heq
            rw [hjk, h] at hn
            exact absurd hn (by simp)
          · exact Or.inr ⟨w, hmem, hn⟩

theorem diff_fold_all_new (prev : Obj Doc) (l : List (String × Doc))
    (acc : Obj Doc × Obj (Doc × String))
    (h : ∀ kv ∈ l, prev.lookup kv.1 = none) :
    l.foldl (diffStep prev) acc =
      (l.foldl (fun a kv => a.set kv.1 kv.2) acc.1, acc.2) := by
  induction l generalizing acc with
  | nil => simp
  | cons kv rest ih =>
    simp only [List.foldl_cons]
    rw [diffStep_none prev acc kv (h kv (List.mem_cons_self _ _))]
    rw [ih (acc.1.set kv.1 kv.2, acc.2)
      (fun kv2 hkv2 => h kv2 (List.mem_cons_of_mem _ hkv2))]

theorem removed_fold_all (latest : Obj Doc) (l : List (String × Doc))
    (acc : Obj Doc) (h : ∀ kv ∈ l, latest.lookup kv.1 = none) :
    l.foldl (removedStep latest) acc =
      l.foldl (fun a kv => a.set kv.1 kv.2) acc := by
  induction l generalizing acc with
  | nil => simp
  | cons kv rest ih =>
    simp only [List.foldl_cons]
    rw [removedStep_none latest acc kv (h kv (List.mem_cons_self _ _))]
    rw [ih (acc.set kv.1 kv.2)
      (fun kv2 hkv2 => h kv2 (List.mem_cons_of_mem _ hkv2))]

theorem buildStep_pos (source : Source) (ts : String) (acc : Obj Doc)
    (item : String × String) (h : jsTrim item.1 ≠ "" ∧ item.2 ≠ "") :
    buildStep source ts acc item =
      acc.set (source.type ++ ":" ++ jsTrim item.1)
        { title := jsTrim item.1, content := item.2, source := source.name,
          type := source.type, url := source.url, timestamp := ts } := by
  simp [buildStep, h]

theorem buildStep_neg (source : Source) (ts : String) (acc : Obj Doc)
    (item : String × String) (h : ¬(jsTrim item.1 ≠ "" ∧ item.2 ≠ "")) :
    buildStep source ts acc item = acc := by
  simp only [buildStep, if_neg h]

theorem build_fold_key_shape (source : Source) (ts : String)
    (items : List (String × String)) (acc : Obj Doc) (j : String)
    (hj : j ∈ (items.foldl (buildStep source ts) acc).keys) :
    j ∈ acc.keys ∨
      ∃ raw content, (raw, content) ∈ items ∧ jsTrim raw ≠ "" ∧
        content ≠ "" ∧ j = source.type ++ ":" ++ jsTrim raw := by
  induction items generalizing acc with
  | nil => exact Or.inl hj
  | cons item rest ih =>
    obtain ⟨raw, c⟩ := item
    rw [List.foldl_cons] at hj
    by_cases hp : jsTrim raw ≠ "" ∧ c ≠ ""
    · rw [buildStep_pos source ts acc (raw, c) hp] at hj
      rcases ih _ hj with hj2 | ⟨raw2, c2, hm, h1, h2, h3⟩
      · rw [Obj.mem_keys_set] at hj2
        rcases hj2 with hja | rfl
        · exact Or.inl hja
        · exact Or.inr ⟨raw, c, List.mem_cons_self _ _, hp.1, hp.2, rfl⟩
      · exact Or.inr ⟨raw2, c2, List.mem_cons_of_mem _ hm, h1, h2, h3⟩
    · rw [buildStep_neg source ts acc (raw, c) hp] at hj
      rcases ih _ hj with hj2 | ⟨raw2, c2, hm, h1, h2, h3⟩
      · exact Or.inl hj2
      · exact Or.inr ⟨raw2, c2, List.mem_cons_of_mem _ hm, h1, h2, h3⟩

theorem build_fold_nodup (source : Source) (ts : String)
    (items : List (String × String)) (acc : Obj Doc)
    (h : acc.keys.Nodup) :
    (items.foldl (buildStep source ts) acc).keys.Nodup := by
  induction items generalizing acc with
  | nil => exact h
  | cons item rest ih =>
    rw [List.foldl_cons]
    by_cases hp : jsTrim item.1 ≠ "" ∧ item.2 ≠ ""
    · rw [buildStep_pos source ts acc item hp]
      exact ih _ (Obj.keys_nodup_set acc _ _ h)
    · rw [buildStep_neg source ts acc item hp]
      exact ih _ h

theorem build_fold_filter (source : Source) (ts : String)
    (items : List (String × String)) (acc : Obj Doc) :
    items.foldl (buildStep source ts) acc =
      (items.filter
        (fun item => decide (jsTrim item.1 ≠ "" ∧ item.2 ≠ ""))).foldl
        (buildStep source ts) acc := by
  induction items generalizing acc with
  | nil => rfl
  | cons item rest ih =>
    by_cases hp : jsTrim item.1 ≠ "" ∧ item.2 ≠ ""
    · simp only [List.foldl_cons, List.filter_cons, decide_eq_true hp,
        if_true]
      exact ih _
    · simp only [List.foldl_cons, List.filter_cons, decide_eq_false hp,
        if_false]
      rw [buildStep_neg source ts acc item hp]
      exact ih _

theorem mem_keys_foldl_merge (objs : List (Obj Doc)) (acc : Obj Doc)
    (j : String) :
    j ∈ (objs.foldl Obj.merge acc).keys ↔
      j ∈ acc.keys ∨ ∃ o ∈ objs, j ∈ Obj.keys o := by
  induction objs generalizing acc with
  | nil => simp
  | cons o rest ih =>
    simp only [List.foldl_cons]
    rw [ih, Obj.mem_keys_merge]
    constructor
    · rintro ((hj | hj) | ⟨o2, ho2, hj⟩)
      · exact Or.inl hj
      · exact Or.inr ⟨o, List.mem_cons_self _ _, hj⟩
      · exact Or.inr ⟨o2, List.mem_cons_of_mem _ ho2, hj⟩
    · rintro (hj | ⟨o2, ho2, hj⟩)
      · exact Or.inl (Or.inl hj)
      · rcases List.mem_cons.mp ho2 with rfl | hm
        · exact Or.inl (Or.inr hj)
        · exact Or.inr ⟨o2, hm, hj⟩


theorem keys_def {α : Type} (o : Obj α) : Obj.keys o = o.map Prod.fst := rfl

/-! ## Lemmas about processDocs -/

theorem merged_keys_iff (prev latest : Obj Doc) (k : String) :
    k ∈ (latest.foldl (fun acc kv => acc.set kv.1 kv.2)
        ((findDifferences prev latest).removedDocs.foldl
          (fun acc kv => acc.del kv.1) prev)).keys ↔ k ∈ latest.keys := by
  rw [Obj.mem_keys_foldl_set, Obj.mem_keys_foldl_del]
  have hrem : ∀ j, j ∈ (findDifferences prev latest).removedDocs.map Prod.fst ↔
      (j ∈ prev.keys ∧ j ∉ latest.keys) := by
    intro j
    simp only [findDifferences]
    have h2 := removed_fold_mem latest prev [] j
    simp only [keys_def] at h2
    rw [h2]
    simp only [List.map_nil, List.not_mem_nil, false_or]
    constructor
    · rintro ⟨v, hv, hn⟩
      exact ⟨(Obj.mem_keys_iff_exists prev j).mpr ⟨v, hv⟩,
        (Obj.lookup_eq_none_iff latest j).mp hn⟩
    · rintro ⟨hp, hnl⟩
      obtain ⟨v, hv⟩ := (Obj.mem_keys_iff_exists prev j).mp hp
      exact ⟨v, hv, (Obj.lookup_eq_none_iff latest j).mpr hnl⟩
  rw [hrem k]
  show _ ∨ k ∈ Obj.keys latest ↔ _
  tauto

theorem processDocs_spec (net : Net) (ts : String) (st : DifferState)
    (sourceTypes : List String) (hs : sourcesFor sourceTypes ≠ []) :
    (processDocs net ts st sourceTypes).1.success = true ∧
    (processDocs net ts st sourceTypes).2.fsContents =
      some (processDocs net ts st sourceTypes).2.previousDocs ∧
    ∀ k, k ∈ (processDocs net ts st sourceTypes).2.previousDocs.keys ↔
      k ∈ (latestFetched net ts sourceTypes).keys := by
  have hlen : ¬ (sourcesFor sourceTypes).length = 0 := by
    simpa [List.length_eq_zero] using hs
  refine ⟨?_, ?_, ?_⟩
  · simp [processDocs, hlen]
  · simp [processDocs, hlen]
  · intro k
    simp only [processDocs, if_neg hlen]
    exact merged_keys_iff st.previousDocs (latestFetched net ts sourceTypes) k

/-! ## Lemmas about StorageManager -/

theorem lastReset_applyOp (d : UserData) (op : StorageOp) :
    (applyOp d op).usage.lastResetDate =
      match opToday op with
      | some t => t
      | none => d.usage.lastResetDate := by
  cases op with
  | getUsage t =>
    by_cases h : d.usage.lastResetDate = t <;>
      simp [applyOp, getDailyUsage, opToday, h]
  | increment f t =>
    show (incrementDailyUsage f t d).2.usage.lastResetDate = t
    have husage : ((getDailyUsage t d).1).lastResetDate = t := by
      by_cases h : d.usage.lastResetDate = t
      · simp [getDailyUsage, h]
      · simp [getDailyUsage, h]
    simp only [incrementDailyUsage]
    split_ifs <;> simpa using husage
  | setPlan p => rfl
  | setDepth x => rfl

theorem resetCount_zero (t : String) (ops : List StorageOp) :
    ∀ d : UserData, (∀ op ∈ ops, ∀ s, opToday op = some s → s = t) →
      d.usage.lastResetDate = t → resetCount d ops = 0 := by
  induction ops with
  | nil =>
    intro d _ _
    rfl
  | cons op rest ih =>
    intro d h hd
    have hrest : ∀ op2 ∈ rest, ∀ s, opToday op2 = some s → s = t :=
      fun op2 hop2 => h op2 (List.mem_cons_of_mem _ hop2)
    have hno : didReset d op = false := by
      cases op with
      | getUsage s =>
        have hs : s = t := h _ (List.mem_cons_self _ _) s rfl
        simp [didReset, hs, hd]
      | increment f s =>
        have hs : s = t := h _ (List.mem_cons_self _ _) s rfl
        simp [didReset, hs, hd]
      | setPlan p => rfl
      | setDepth x => rfl
    have hd2 : (applyOp d op).usage.lastResetDate = t := by
      rw [lastReset_applyOp]
      cases op with
      | getUsage s => exact h _ (List.mem_cons_self _ _) s rfl
      | increment f s => exact h _ (List.mem_cons_self _ _) s rfl
      | setPlan p => exact hd
      | setDepth x => exact hd
    simp only [resetCount, hno, Bool.false_eq_true, if_false, zero_add]
    exact ih _ hrest hd2

theorem resetCount_formula (t : String) (ops : List StorageOp) :
    ∀ d : UserData, (∀ op ∈ ops, ∀ s, opToday op = some s → s = t) →
      resetCount d ops =
        if d.usage.lastResetDate ≠ t ∧ ops.any isUsageOp = true then 1
        else 0 := by
  induction ops with
  | nil =>
    intro d _
    simp [resetCount]
  | cons op rest ih =>
    intro d h
    have hrest : ∀ op2 ∈ rest, ∀ s, opToday op2 = some s → s = t :=
      fun op2 hop2 => h op2 (List.mem_cons_of_mem _ hop2)
    have hd2 : (applyOp d op).usage.lastResetDate =
        match opToday op with
        | some s => s
        | none => d.usage.lastResetDate := lastReset_applyOp d op
    cases op with
    | getUsage s =>
      have hs : s = t := h _ (List.mem_cons_self _ _) s rfl
      subst hs
      by_cases hd : d.usage.lastResetDate = s
      · have hno : didReset d (StorageOp.getUsage s) = false := by
          simp [didReset, hd]
        simp only [resetCount, hno, Bool.false_eq_true, if_false, zero_add]
        rw [resetCount_zero s rest _ hrest (by simpa [opToday] using hd2)]
        simp [hd]
      · have hyes : didReset d (StorageOp.getUsage s) = true := by
          simp [didReset, hd]
        simp only [resetCount, hyes, if_true]
        rw [resetCount_zero s rest _ hrest (by simpa [opToday] using hd2)]
        simp [hd, isUsageOp]
    | increment f s =>
      have hs : s = t := h _ (List.mem_cons_self _ _) s rfl
      subst hs
      by_cases hd : d.usage.lastResetDate = s
      · have hno : didReset d (StorageOp.increment f s) = false := by
          simp [didReset, hd]
        simp only [resetCount, hno, Bool.false_eq_true, if_false, zero_add]
        rw [resetCount_zero s rest _ hrest (by simpa [opToday] using hd2)]
        simp [hd]
      · have hyes : didReset d (StorageOp.increment f s) = true := by
          simp [didReset, hd]
        simp only [resetCount, hyes, if_true]
        rw [resetCount_zero s rest _ hrest (by simpa [opToday] using hd2)]
        simp [hd, isUsageOp]
    | setPlan p =>
      have hno : didReset d (StorageOp.setPlan p) = false := rfl
      simp only [resetCount, hno, Bool.false_eq_true, if_false, zero_add]
      rw [ih _ hrest]
      simp only [applyOp, setUserPlan]
      simp [List.any_cons, isUsageOp]
    | setDepth x =>
      have hno : didReset d (StorageOp.setDepth x) = false := rfl
      simp only [resetCount, hno, Bool.false_eq_true, if_false, zero_add]
      rw [ih _ hrest]
      simp only [applyOp, setContextDepth]
      simp [List.any_cons, isUsageOp]

theorem getDailyUsage_reset_spec (today : String) (e : UserData) :
    (getDailyUsage today e).2.usage =
      (if e.usage.lastResetDate ≠ today then
        { lastResetDate := today, completions := 0, docRefreshes := 0,
          contextDepth := e.usage.contextDepth }
      else e.usage) ∧
    (getDailyUsage today e).1 = (getDailyUsage today e).2.usage := by
  by_cases h : e.usage.lastResetDate = today <;> simp [getDailyUsage, h]

theorem counters_no_decrease (e : UserData) (op : StorageOp)
    (h : didReset e op = false) :
    e.usage.completions ≤ (applyOp e op).usage.completions ∧
    e.usage.docRefreshes ≤ (applyOp e op).usage.docRefreshes ∧
    (applyOp e op).usage.lastResetDate = e.usage.lastResetDate := by
  cases op with
  | getUsage s =>
    have hd : e.usage.lastResetDate = s := by
      simpa [didReset] using h
    simp [applyOp, getDailyUsage, hd]
  | increment f s =>
    have hd : e.usage.lastResetDate = s := by
      simpa [didReset] using h
    have hng : ¬ e.usage.lastResetDate ≠ s := not_not_intro hd
    simp only [applyOp, incrementDailyUsage, getDailyUsage, if_neg hng]
    split_ifs <;> simp
  | setPlan p => simp [applyOp, setUserPlan]
  | setDepth x => simp [applyOp, setContextDepth]

/-! ## Lemmas about the extractor caches -/

theorem storeContextQuery_length {α : Type} (c : Obj α) (k : String) (v : α)
    (h : c.length ≤ 51) : (storeContextQuery c k v).length ≤ 51 := by
  simp only [storeContextQuery]
  by_cases hl : c.length > 50
  · rw [if_pos hl]
    have hne : c ≠ [] := by
      intro he
      rw [he] at hl
      simp at hl
    have hhead : (Obj.keys c).headD "" ∈ Obj.keys c := by
      cases c with
      | nil => exact absurd rfl hne
      | cons kv rest =>
        obtain ⟨k0, v0⟩ := kv
        simp [Obj.keys]
    have hdel := Obj.length_del_lt c ((Obj.keys c).headD "") hhead
    have hset := Obj.length_set_le (c.del ((Obj.keys c).headD "")) k v
    omega
  · rw [if_neg hl]
    have hset := Obj.length_set_le c k v
    omega

theorem storeRelevantDoc_length {α : Type} (c : Obj α) (k : String) (v : α)
    (h : c.length ≤ 31) : (storeRelevantDoc c k v).length ≤ 31 := by
  simp only [storeRelevantDoc]
  by_cases hl : c.length > 30
  · rw [if_pos hl]
    have hne : c ≠ [] := by
      intro he
      rw [he] at hl
      simp at hl
    have hhead : (Obj.keys c).headD "" ∈ Obj.keys c := by
      cases c with
      | nil => exact absurd rfl hne
      | cons kv rest =>
        obtain ⟨k0, v0⟩ := kv
        simp [Obj.keys]
    have hdel := Obj.length_del_lt c ((Obj.keys c).headD "") hhead
    have hset := Obj.length_set_le (c.del ((Obj.keys c).headD "")) k v
    omega
  · rw [if_neg hl]
    have hset := Obj.length_set_le c k v
    omega

theorem runContextQueryStores_bound {α : Type} (inserts : List (String × α)) :
    (runContextQueryStores inserts).length ≤ 51 := by
  suffices h : ∀ c : Obj α, c.length ≤ 51 →
      (inserts.foldl (fun cache kv => storeContextQuery cache kv.1 kv.2)
        c).length ≤ 51 by
    exact h [] (by simp)
  induction inserts with
  | nil =>
    intro c hc
    exact hc
  | cons kv rest ih =>
    intro c hc
    rw [List.foldl_cons]
    exact ih _ (storeContextQuery_length c kv.1 kv.2 hc)

theorem runRelevantDocStores_bound {α : Type} (inserts : List (String × α)) :
    (runRelevantDocStores inserts).length ≤ 31 := by
  suffices h : ∀ c : Obj α, c.length ≤ 31 →
      (inserts.foldl (fun cache kv => storeRelevantDoc cache kv.1 kv.2)
        c).length ≤ 31 by
    exact h [] (by simp)
  induction inserts with
  | nil =>
    intro c hc
    exact hc
  | cons kv rest ih =>
    intro c hc
    rw [List.foldl_cons]
    exact ih _ (storeRelevantDoc_length c kv.1 kv.2 hc)

theorem storeContextQuery_evicts_oldest {α : Type} (c : Obj α) (k : String)
    (v : α) (hn : (Obj.keys c).Nodup) (hl : 50 < c.length) :
    storeContextQuery c k v = Obj.set c.tail k v := by
  cases c with
  | nil => simp at hl
  | cons kv rest =>
    obtain ⟨k0, v0⟩ := kv
    simp only [Obj.keys, List.map_cons, List.nodup_cons] at hn
    have hdel : Obj.del ((k0, v0) :: rest)
        ((Obj.keys ((k0, v0) :: rest)).headD "") = rest := by
      show Obj.del ((k0, v0) :: rest) k0 = rest
      simp only [Obj.del, eq_self_iff_true, if_true]
      exact Obj.del_eq_self rest k0 (by simpa [Obj.keys] using hn.1)
    simp only [storeContextQuery]
    rw [if_pos (show ((k0, v0) :: rest).length > 50 from hl), hdel]
    rfl

theorem storeRelevantDoc_evicts_oldest {α : Type} (c : Obj α) (k : String)
    (v : α) (hn : (Obj.keys c).Nodup) (hl : 30 < c.length) :
    storeRelevantDoc c k v = Obj.set c.tail k v := by
  cases c with
  | nil => simp at hl
  | cons kv rest =>
    obtain ⟨k0, v0⟩ := kv
    simp only [Obj.keys, List.map_cons, List.nodup_cons] at hn
    have hdel : Obj.del ((k0, v0) :: rest)
        ((Obj.keys ((k0, v0) :: rest)).headD "") = rest := by
      show Obj.del ((k0, v0) :: rest) k0 = rest
      simp only [Obj.del, eq_self_iff_true, if_true]
      exact Obj.del_eq_self rest k0 (by simpa [Obj.keys] using hn.1)
    simp only [storeRelevantDoc]
    rw [if_pos (show ((k0, v0) :: rest).length > 30 from hl), hdel]
    rfl


/-! ## The claims -/

/-- C1: `findDifferences` is a pure set-difference law: the new keys are
exactly the latest snapshot's keys absent from the previous snapshot, the
removed keys exactly the previous snapshot's keys absent from the latest,
and the updated keys exactly the keys present in both whose `content`
fields differ; in particular two empty snapshots produce three empty
results, and fully disjoint snapshots classify every latest key as new,
every previous key as removed, and none as updated. -/
theorem findDifferences_set_difference (A B : Obj Doc)
    (hA : (Obj.keys A).Nodup) (hB : (Obj.keys B).Nodup) :
    (∀ k, k ∈ (findDifferences A B).newDocs.keys ↔
      (k ∈ B.keys ∧ k ∉ A.keys)) ∧
    (∀ k, k ∈ (findDifferences A B).removedDocs.keys ↔
      (k ∈ A.keys ∧ k ∉ B.keys)) ∧
    (∀ k, k ∈ (findDifferences A B).updatedDocs.keys ↔
      ∃ da db, A.lookup k = some da ∧ B.lookup k = some db ∧
        da.content ≠ db.content) ∧
    (A = [] → B = [] →
      (findDifferences A B).newDocs = [] ∧
      (findDifferences A B).updatedDocs = [] ∧
      (findDifferences A B).removedDocs = []) ∧
    ((∀ k, k ∈ A.keys → k ∉ B.keys) →
      (findDifferences A B).newDocs.keys = B.keys ∧
      (findDifferences A B).removedDocs.keys = A.keys ∧
      (findDifferences A B).updatedDocs = []) := by
  refine ⟨?_, ?_, ?_, ?_, ?_⟩
  · intro k
    simp only [findDifferences]
    rw [diff_fold_fst_mem]
    simp only [Obj.keys, List.map_nil, List.not_mem_nil, false_or]
    constructor
    · rintro ⟨v, hv, hn⟩
      exact ⟨(Obj.mem_keys_iff_exists B k).mpr ⟨v, hv⟩,
        (Obj.lookup_eq_none_iff A k).mp hn⟩
    · rintro ⟨hkB, hkA⟩
      obtain ⟨v, hv⟩ := (Obj.mem_keys_iff_exists B k).mp hkB
      exact ⟨v, hv, (Obj.lookup_eq_none_iff A k).mpr hkA⟩
  · intro k
    simp only [findDifferences]
    rw [removed_fold_mem]
    simp only [Obj.keys, List.map_nil, List.not_mem_nil, false_or]
    constructor
    · rintro ⟨v, hv, hn⟩
      exact ⟨(Obj.mem_keys_iff_exists A k).mpr ⟨v, hv⟩,
        (Obj.lookup_eq_none_iff B k).mp hn⟩
    · rintro ⟨hkA, hkB⟩
      obtain ⟨v, hv⟩ := (Obj.mem_keys_iff_exists A k).mp hkA
      exact ⟨v, hv, (Obj.lookup_eq_none_iff B k).mpr hkB⟩
  · intro k
    simp only [findDifferences]
    rw [diff_fold_snd_mem]
    simp only [Obj.keys, List.map_nil, List.not_mem_nil, false_or]
    constructor
    · rintro ⟨v, e, hv, hs, hne⟩
      exact ⟨e, v, hs, (Obj.lookup_eq_some_iff B k v hB).mpr hv, hne⟩
    · rintro ⟨da, db, hsa, hsb, hne⟩
      exact ⟨db, da, (Obj.lookup_eq_some_iff B k db hB).mp hsb, hsa, hne⟩
  · intro h1 h2
    subst h1
    subst h2
    exact ⟨rfl, rfl, rfl⟩
  · intro hdis
    have hBnone : ∀ kv ∈ B, A.lookup kv.1 = none := by
      intro kv hkv
      rw [Obj.lookup_eq_none_iff]
      intro hmem
      exact hdis kv.1 hmem
        ((Obj.mem_keys_iff_exists B kv.1).mpr ⟨kv.2, by simpa using hkv⟩)
    have hAnone : ∀ kv ∈ A, B.lookup kv.1 = none := by
      intro kv hkv
      rw [Obj.lookup_eq_none_iff]
      exact hdis kv.1
        ((Obj.mem_keys_iff_exists A kv.1).mpr ⟨kv.2, by simpa using hkv⟩)
    refine ⟨?_, ?_, ?_⟩
    · simp only [findDifferences]
      rw [diff_fold_all_new A B ([], []) hBnone]
      rw [Obj.foldl_set_eq_append B [] (by simp [Obj.keys])
        (by simpa [Obj.keys] using hB)]
      simp
    · simp only [findDifferences]
      rw [removed_fold_all B A [] hAnone]
      rw [Obj.foldl_set_eq_append A [] (by simp [Obj.keys])
        (by simpa [Obj.keys] using hA)]
      simp
    · simp only [findDifferences]
      rw [diff_fold_all_new A B ([], []) hBnone]

/-- C1 witness: the classification evaluated on two concrete one-entry
snapshots. -/
theorem findDifferences_set_difference_witness :
    (Obj.keys prevC1).Nodup ∧ (Obj.keys latestC1).Nodup ∧
    ("nextjs:B" ∈ (findDifferences prevC1 latestC1).newDocs.keys ↔
      ("nextjs:B" ∈ latestC1.keys ∧ "nextjs:B" ∉ prevC1.keys)) :=
  ⟨by decide, by decide,
   (findDifferences_set_difference prevC1 latestC1 (by decide)
     (by decide)).1 "nextjs:B"⟩

/-- C2: a successful `processDocs` run reports success, writes the merged
snapshot to the docs file, and reloading that file yields exactly the
merged snapshot, whose key set is exactly the key set the latest fetch
reported (every newly fetched key present, every key the fetch no longer
reports absent). -/
theorem processDocs_writes_and_reloads_latest (net : Net) (ts : String)
    (st : DifferState) (sourceTypes : List String)
    (hs : sourcesFor sourceTypes ≠ []) :
    (processDocs net ts st sourceTypes).1.success = true ∧
    loadPreviousDocs (processDocs net ts st sourceTypes).2.fsContents =
      (processDocs net ts st sourceTypes).2.previousDocs ∧
    ∀ k,
      k ∈ (loadPreviousDocs
        (processDocs net ts st sourceTypes).2.fsContents).keys ↔
        k ∈ (latestFetched net ts sourceTypes).keys := by
  obtain ⟨h1, h2, h3⟩ := processDocs_spec net ts st sourceTypes hs
  refine ⟨h1, ?_, ?_⟩
  · rw [h2]
    rfl
  · intro k
    rw [h2]
    simpa [loadPreviousDocs] using h3 k

/-- C2 witness: a concrete run over the default sources, one of which
answers, reports success. -/
theorem processDocs_writes_and_reloads_latest_witness :
    sourcesFor [] ≠ [] ∧
    (processDocs netC2 "t0" stC2 []).1.success = true :=
  ⟨by decide,
   (processDocs_writes_and_reloads_latest netC2 "t0" stC2 [] (by decide)).1⟩

/-- C3: over any call sequence whose clock reads all fall on one date, the
counters are reset exactly once — exactly when the stored `lastResetDate`
differs from that date and some call goes through `getDailyUsage` — the
reset inside `getDailyUsage` zeroes both counters and stamps today's date
exactly when the stored date differs, and no operation that does not hit
the reset ever decreases either counter or changes `lastResetDate`. -/
theorem usage_counters_reset_once_per_day (d : UserData)
    (ops : List StorageOp) (t : String)
    (h : ∀ op ∈ ops, ∀ s, opToday op = some s → s = t) :
    resetCount d ops =
      (if d.usage.lastResetDate ≠ t ∧ ops.any isUsageOp = true then 1
       else 0) ∧
    (∀ today e, (getDailyUsage today e).2.usage =
      (if e.usage.lastResetDate ≠ today then
        { lastResetDate := today, completions := 0, docRefreshes := 0,
          contextDepth := e.usage.contextDepth }
      else e.usage)) ∧
    (∀ e op, didReset e op = false →
      e.usage.completions ≤ (applyOp e op).usage.completions ∧
      e.usage.docRefreshes ≤ (applyOp e op).usage.docRefreshes ∧
      (applyOp e op).usage.lastResetDate = e.usage.lastResetDate) :=
  ⟨resetCount_formula t ops d h,
   fun today e => (getDailyUsage_reset_spec today e).1,
   counters_no_decrease⟩

/-- C3 witness: a concrete day-rollover sequence resets exactly once. -/
theorem usage_counters_reset_once_per_day_witness :
    (∀ op ∈ opsC3, ∀ s, opToday op = some s → s = "2024-01-02") ∧
    resetCount dC3 opsC3 =
      (if dC3.usage.lastResetDate ≠ "2024-01-02" ∧
          opsC3.any isUsageOp = true then 1 else 0) := by
  have h : ∀ op ∈ opsC3, ∀ s, opToday op = some s → s = "2024-01-02" := by
    intro op hop s hs
    simp only [opsC3, List.mem_cons, List.not_mem_nil, or_false] at hop
    rcases hop with rfl | rfl | rfl
    · simp only [opToday, Option.some.injEq] at hs
      exact hs.symm
    · simp only [opToday, Option.some.injEq] at hs
      exact hs.symm
    · simp [opToday] at hs
  exact ⟨h, (usage_counters_reset_once_per_day dC3 opsC3 "2024-01-02" h).1⟩

set_option maxRecDepth 40000 in
/-- C4 counterexample: 51 insertions with distinct keys leave the
contextQueries cache holding 51 entries, which exceeds 50, so the cache is
not bounded by its 50-entry threshold. -/
theorem contextQueries_cache_exceeds_50 :
    (runContextQueryStores (cacheKeysC4 51)).length = 51 ∧
    ¬ (runContextQueryStores (cacheKeysC4 51)).length ≤ 50 := by
  decide

/-- C4 (amended): after any insertion sequence the contextQueries cache
holds at most 51 entries and the relevantDocs cache at most 31 — one above
their 50/30 eviction thresholds, because each store evicts the oldest
entry (the first in insertion order) only when the pre-insertion size
already exceeds the threshold. -/
theorem caches_bounded_one_above_threshold {α : Type} :
    (∀ inserts : List (String × α),
      (runContextQueryStores inserts).length ≤ 51) ∧
    (∀ inserts : List (String × α),
      (runRelevantDocStores inserts).length ≤ 31) ∧
    (∀ (c : Obj α) (k : String) (v : α), (Obj.keys c).Nodup →
      50 < c.length → storeContextQuery c k v = Obj.set c.tail k v) ∧
    (∀ (c : Obj α) (k : String) (v : α), (Obj.keys c).Nodup →
      30 < c.length → storeRelevantDoc c k v = Obj.set c.tail k v) :=
  ⟨runContextQueryStores_bound, runRelevantDocStores_bound,
   storeContextQuery_evicts_oldest, storeRelevantDoc_evicts_oldest⟩

/-- C5: while `isProcessing` is set, a second `handleAiQuery` posts only the
informational busy message and changes nothing else — no history entry, no
state change, no queued work — and `handleRefreshDocs` likewise posts only
its error-status busy message and changes nothing else. -/
theorem busy_panel_rejects_second_request (st : PanelState) (query : String)
    (outcome : Except String String)
    (outcome2 : Except String (Nat × Nat × Nat))
    (h : st.isProcessing = true) :
    handleAiQuery st query outcome =
      { st with posted := st.posted ++ [stillProcessingMsg] } ∧
    (handleAiQuery st query outcome).messageHistory = st.messageHistory ∧
    (handleAiQuery st query outcome).isProcessing = true ∧
    handleRefreshDocs st outcome2 =
      { st with posted := st.posted ++ [refreshBusyMsg] } ∧
    (handleRefreshDocs st outcome2).messageHistory = st.messageHistory := by
  have h1 : handleAiQuery st query outcome =
      { st with posted := st.posted ++ [stillProcessingMsg] } := by
    simp [handleAiQuery, h]
  have h2 : handleRefreshDocs st outcome2 =
      { st with posted := st.posted ++ [refreshBusyMsg] } := by
    simp [handleRefreshDocs, h]
  refine ⟨h1, ?_, ?_, h2, ?_⟩ <;> simp [h1, h2, h]

/-- C5 witness: the busy guard evaluated on a concrete busy panel. -/
theorem busy_panel_rejects_second_request_witness :
    stC5.isProcessing = true ∧
    (handleAiQuery stC5 "query" (Except.ok "response")).messageHistory =
      stC5.messageHistory :=
  ⟨rfl,
   (busy_panel_rejects_second_request stC5 "query" (Except.ok "response")
     (Except.ok (1, 2, 3)) rfl).2.1⟩

/-- C6: a source whose fetch throws contributes the empty object, the
merged latest snapshot holds exactly the keys of the per-source results
(so every entry of the other sources is kept and nothing of the failed
source appears), and `processDocs` still reports success whenever any
source was selected. -/
theorem failed_source_isolated (net : Net) (ts : String) (st : DifferState)
    (sourceTypes : List String) (source : Source)
    (hfail : net source = Except.error ()) :
    fetchLatestDocs net ts source = [] ∧
    (∀ k, k ∈ (latestFetched net ts sourceTypes).keys ↔
      ∃ s ∈ sourcesFor sourceTypes, k ∈ (fetchLatestDocs net ts s).keys) ∧
    (sourcesFor sourceTypes ≠ [] →
      (processDocs net ts st sourceTypes).1.success = true) := by
  refine ⟨?_, ?_, ?_⟩
  · simp [fetchLatestDocs, hfail]
  · intro k
    simp only [latestFetched]
    rw [mem_keys_foldl_merge]
    constructor
    · rintro (h0 | ⟨o, ho, hk⟩)
      · simp [Obj.keys] at h0
      · obtain ⟨s, hsmem, rfl⟩ := List.mem_map.mp ho
        exact ⟨s, hsmem, hk⟩
    · rintro ⟨s, hsmem, hk⟩
      exact Or.inr ⟨_, List.mem_map_of_mem _ hsmem, hk⟩
  · intro hs
    exact (processDocs_spec net ts st sourceTypes hs).1

/-- C6 witness: the Tailwind source fails on the concrete network and
contributes the empty object. -/
theorem failed_source_isolated_witness :
    netC6 srcC6 = Except.error () ∧
    fetchLatestDocs netC6 "t0" srcC6 = [] :=
  ⟨rfl, (failed_source_isolated netC6 "t0" stC6 [] srcC6 rfl).1⟩

/-- C7: every key a successful fetch contributes has the form
`type ++ ":" ++ trimmed title` for some scraped heading with non-empty
trimmed title and non-empty content, the keys are pairwise distinct, and
headings with an empty trimmed title or empty content contribute nothing:
the fetch equals the fetch over only the passing headings. -/
theorem fetch_keys_shape (net : Net) (ts : String) (source : Source)
    (items : List (String × String)) (hok : net source = Except.ok items) :
    (∀ k ∈ (fetchLatestDocs net ts source).keys,
      ∃ raw content, (raw, content) ∈ items ∧ jsTrim raw ≠ "" ∧
        content ≠ "" ∧ k = source.type ++ ":" ++ jsTrim raw) ∧
    (fetchLatestDocs net ts source).keys.Nodup ∧
    fetchLatestDocs net ts source =
      buildDocs source ts (items.filter
        (fun item => decide (jsTrim item.1 ≠ "" ∧ item.2 ≠ ""))) := by
  have hfd : fetchLatestDocs net ts source = buildDocs source ts items := by
    simp [fetchLatestDocs, hok]
  refine ⟨?_, ?_, ?_⟩
  · intro k hk
    rw [hfd] at hk
    rcases build_fold_key_shape source ts items [] k hk with h0 | h2
    · simp [Obj.keys] at h0
    · exact h2
  · rw [hfd]
    exact build_fold_nodup source ts items [] (by simp [Obj.keys])
  · rw [hfd]
    simp only [buildDocs]
    exact build_fold_filter source ts items []

/-- C7 witness: the concrete scrape with a blank-title heading and an
empty-content heading yields pairwise distinct keys. -/
theorem fetch_keys_shape_witness :
    netC7 srcC7 = Except.ok itemsC7 ∧
    (fetchLatestDocs netC7 "t0" srcC7).keys.Nodup :=
  ⟨rfl, (fetch_keys_shape netC7 "t0" srcC7 itemsC7 rfl).2.1⟩

/-- C8: the webview script's message switch carries `docResponse` as both
its fifth and sixth case label, JavaScript switch dispatch sends every
`docResponse` message to the first of the two (index 4), never to the
second, and `apiDocsButton` appears twice among the `const` declarations of
one scope — both label list and declaration list contain duplicates. -/
theorem webview_script_duplicate_defects :
    messageSwitchCases[4]? = some "docResponse" ∧
    messageSwitchCases[5]? = some "docResponse" ∧
    switchTarget "docResponse" messageSwitchCases = some 4 ∧
    switchTarget "docResponse" messageSwitchCases ≠ some 5 ∧
    webviewConstDeclarations.count "apiDocsButton" = 2 ∧
    ¬ messageSwitchCases.Nodup ∧
    ¬ webviewConstDeclarations.Nodup := by
  decide

/-- C9: a missing, empty or whitespace-only query makes `getDocumentation`
return the empty-query error record with the service state unchanged: no
cache read or write, no pending-request touch, no fetch issued. -/
theorem empty_query_rejected (st : DocServiceState) (query : Option String)
    (type0 : Option String) (now : Nat)
    (fetch : String → String → DocResponse)
    (pending : String → DocResponse)
    (h : query = none ∨ ∃ q, query = some q ∧ jsTrim q = "") :
    getDocumentation st query type0 now fetch pending =
      (DocResponse.err "Query cannot be empty", st) := by
  rcases h with rfl | ⟨q, rfl, hq⟩
  · rfl
  · simp [getDocumentation, hq]

/-- C9 witness: a whitespace-only query is rejected with the state
unchanged. -/
theorem empty_query_rejected_witness :
    (some "   " = (none : Option String) ∨
      ∃ q, some "   " = some q ∧ jsTrim q = "") ∧
    getDocumentation stC9 (some "   ") none 0
      (fun _ _ => DocResponse.payload "ok")
      (fun _ => DocResponse.payload "pending") =
      (DocResponse.err "Query cannot be empty", stC9) := by
  have h : some "   " = (none : Option String) ∨
      ∃ q, some "   " = some q ∧ jsTrim q = "" :=
    Or.inr ⟨"   ", rfl, by decide⟩
  exact ⟨h, empty_query_rejected stC9 (some "   ") none 0 _ _ h⟩

/-- C10: an invocation that begins processing (the panel was idle) always
ends with `isProcessing` false, for success and for thrown errors alike;
on an error the handler posts the converted error-status message. -/
theorem handlers_clear_isProcessing (st : PanelState) (query : String)
    (outcome : Except String String)
    (outcome2 : Except String (Nat × Nat × Nat))
    (h : st.isProcessing = false) :
    (handleAiQuery st query outcome).isProcessing = false ∧
    (handleRefreshDocs st outcome2).isProcessing = false ∧
    (∀ e, outcome = Except.error e →
      (handleAiQuery st query outcome).posted =
        st.posted ++ [processingMsg, aiErrorMsg e] ∧
      (handleAiQuery st query outcome).messageHistory =
        st.messageHistory ++ [("user", query)]) ∧
    (∀ e, outcome2 = Except.error e →
      (handleRefreshDocs st outcome2).posted =
        st.posted ++ [refreshingMsg, refreshErrMsg e,
          refreshErrChatMsg e]) := by
  refine ⟨?_, ?_, ?_, ?_⟩
  · cases outcome <;> simp [handleAiQuery, h]
  · rcases outcome2 with e | t
    · simp [handleRefreshDocs, h]
    · obtain ⟨n, u, r⟩ := t
      simp [handleRefreshDocs, h]
  · intro e he
    subst he
    simp [handleAiQuery, h]
  · intro e he
    subst he
    simp [handleRefreshDocs, h]

/-- C10 witness: a failed request on a concrete idle panel leaves the flag
cleared. -/
theorem handlers_clear_isProcessing_witness :
    stC10.isProcessing = false ∧
    (handleAiQuery stC10 "q" (Except.error "boom")).isProcessing = false :=
  ⟨rfl,
   (handlers_clear_isProcessing stC10 "q" (Except.error "boom")
     (Except.error "boom") rfl).1⟩

end RealTimeCodeAi
